import Mathlib

/- Formal model of the `medical_data` package of the ai-doctor/medical-data
repository: the markdown catalog parser and query layer of
`src/medical_data/browser.py`, and the statistics function of
`src/medical_data/utils.py`.  Python strings are modelled as `List Char`
(ASCII fragment of the Python text model); each definition mirrors one
Python function or code block and is named after it. -/

namespace MedicalData

/-- ASCII whitespace, the character class used by `str.strip()` and by
`\s` in the regexes of `browser.py` (restricted to ASCII input). -/
def isSpace (c : Char) : Bool :=
  c = ' ' || c = '\t' || c = '\n' || c = '\r' || c = '\x0b' || c = '\x0c'

/-- Python `str.strip()`: drop leading and trailing whitespace. -/
def strip (l : List Char) : List Char :=
  ((l.dropWhile isSpace).reverse.dropWhile isSpace).reverse

/-- Python `str.lower()` on one ASCII character. -/
def lowerChar (c : Char) : Char :=
  if 'A' ≤ c ∧ c ≤ 'Z' then Char.ofNat (c.toNat + 32) else c

/-- Python `str.lower()`. -/
def toLower (l : List Char) : List Char := l.map lowerChar

/-- Python substring containment, `needle in hay`. -/
def hasSub (needle : List Char) : List Char → Bool
  | [] => needle.isEmpty
  | c :: rest => needle.isPrefixOf (c :: rest) || hasSub needle rest

/-- Python `content.split(chr(10))`: split into lines at each newline,
keeping empty pieces (the split of the empty text is one empty line). -/
def splitLines : List Char → List (List Char)
  | [] => [[]]
  | c :: rest =>
    let ls := splitLines rest
    if c = '\n' then [] :: ls
    else
      match ls with
      | [] => [[c]]
      | l :: ls2 => (c :: l) :: ls2

/-- Python `sep.join(parts)`. -/
def joinSep (sep : List Char) : List (List Char) → List Char
  | [] => []
  | [x] => x
  | x :: y :: rest => x ++ sep ++ joinSep sep (y :: rest)

/-- The category-header regex of `parse_readme`,
`re.match(r"^##\s+\d+\.\s+(.+)$", line.strip())`, returning the capture
group (the category title) on a match.  On a stripped line the greedy
runs need no regex backtracking: the maximal digit run must be followed
by a literal dot, and the capture is the nonempty remainder after the
second whitespace run (its ends are trimmed because the whole line is
and it contains no newline). -/
def parseCategoryHeader (line : List Char) : Option (List Char) :=
  match strip line with
  | '#' :: '#' :: r0 =>
    if r0.takeWhile isSpace = [] then none
    else
      let r1 := r0.dropWhile isSpace
      if r1.takeWhile Char.isDigit = [] then none
      else
        match r1.dropWhile Char.isDigit with
        | '.' :: r3 =>
          if r3.takeWhile isSpace = [] then none
          else
            let r4 := r3.dropWhile isSpace
            if r4 = [] then none else some r4
        | _ => none
  | _ => none

/-- Helper for `re.sub(r"__(.+?)__", ...)`: given the text following an
opening `__`, find the shortest nonempty body followed by a closing `__`;
return the body and the text after the closing delimiter. -/
def findBoldClose : List Char → Option (List Char × List Char)
  | [] => none
  | c :: rest =>
    if (['_', '_']).isPrefixOf rest then some ([c], rest.drop 2)
    else
      match findBoldClose rest with
      | some (body, after) => some (c :: body, after)
      | none => none

/-- The scan of `re.sub(r"__(.+?)__", r"\1", text)`: replace every
non-overlapping `__body__` (shortest nonempty body) by its body, left to
right; where no match starts, emit one character and move on.  The extra
fuel argument only makes the recursion structural; every recursive call
strictly shortens the text, so with fuel at least the length of the text
(see `subBold`) the fuel-exhausted case is never reached. -/
def subBoldF : Nat → List Char → List Char
  | _, [] => []
  | 0, l => l
  | fuel + 1, '_' :: '_' :: rest =>
    match findBoldClose rest with
    | some (body, after) => body ++ subBoldF fuel after
    | none => '_' :: subBoldF fuel ('_' :: rest)
  | fuel + 1, c :: rest => c :: subBoldF fuel rest

/-- `re.sub(r"__(.+?)__", r"\1", text)`. -/
def subBold (l : List Char) : List Char := subBoldF l.length l

/-- Helper for the one-character emphasis substitutions
`re.sub(r"\*(.+?)\*", ...)` and the underscore and code-tick variants:
shortest nonempty body followed by the closing delimiter `d`. -/
def findCloseChar (d : Char) : List Char → Option (List Char × List Char)
  | [] => none
  | c :: rest =>
    if rest.head? = some d then some ([c], rest.tail)
    else
      match findCloseChar d rest with
      | some (body, after) => some (c :: body, after)
      | none => none

/-- The scan of `re.sub(r"d(.+?)d", r"\1", text)` for a one-character
delimiter `d`, with structural fuel as in `subBoldF`. -/
def subEmphF (d : Char) : Nat → List Char → List Char
  | _, [] => []
  | 0, l => l
  | fuel + 1, c :: rest =>
    if c = d then
      match findCloseChar d rest with
      | some (body, after) => body ++ subEmphF d fuel after
      | none => c :: subEmphF d fuel rest
    else c :: subEmphF d fuel rest

/-- `re.sub(r"d(.+?)d", r"\1", text)` for a one-character delimiter. -/
def subEmph (d : Char) (l : List Char) : List Char := subEmphF d l.length l

/-- Helper for the markdown-link substitution
`re.sub(r"\[([^\]]+)\]\([^\)]+\)", r"\1", text)`: given the text after an
opening bracket, parse nonempty link text (no closing bracket inside),
the bracket-paren pair, and a nonempty url part (no closing paren
inside); both character classes are maximal-run with no backtracking. -/
def linkParts (l : List Char) : Option (List Char × List Char) :=
  if l.takeWhile (fun c => decide (c ≠ ']')) = [] then none
  else
    match l.dropWhile (fun c => decide (c ≠ ']')) with
    | ']' :: '(' :: r2 =>
      if r2.takeWhile (fun c => decide (c ≠ ')')) = [] then none
      else
        match r2.dropWhile (fun c => decide (c ≠ ')')) with
        | ')' :: r4 => some (l.takeWhile (fun c => decide (c ≠ ']')), r4)
        | _ => none
    | _ => none

/-- The scan of the markdown-link pass of `_clean_markdown`: each
`[text](url)` becomes `text`; structural fuel as in `subBoldF`. -/
def subLinksF : Nat → List Char → List Char
  | _, [] => []
  | 0, l => l
  | fuel + 1, c :: rest =>
    if c = '[' then
      match linkParts rest with
      | some (txt, after) => txt ++ subLinksF fuel after
      | none => c :: subLinksF fuel rest
    else c :: subLinksF fuel rest

/-- The markdown-link pass of `_clean_markdown`. -/
def subLinks (l : List Char) : List Char := subLinksF l.length l

/-- The code-tick delimiter character (code point 96). -/
def tick : Char := Char.ofNat 96

/-- `_clean_markdown`: strip bold, asterisk emphasis, underscore
emphasis, code ticks and markdown links, in that order, then trim. -/
def cleanMarkdown (text : List Char) : List Char :=
  strip (subLinks (subEmph tick (subEmph '_' (subEmph '*' (subBold text)))))

/-- A character the URL regex class `[^\s\)]` accepts. -/
def isUrlChar (c : Char) : Bool := !(isSpace c) && !(c = ')')

/-- One anchored attempt of the URL regex `https?://[^\s\)]+`: the scheme
literal, then a nonempty maximal run of URL characters. -/
def urlHere (l : List Char) : Option (List Char) :=
  if ("https://".data).isPrefixOf l then
    let body := (l.drop 8).takeWhile isUrlChar
    if body = [] then none else some ("https://".data ++ body)
  else if ("http://".data).isPrefixOf l then
    let body := (l.drop 7).takeWhile isUrlChar
    if body = [] then none else some ("http://".data ++ body)
  else none

/-- `_extract_url`: first match of `https?://[^\s\)]+` in the text
(`re.search`: the earliest starting position wins). -/
def extractUrl : List Char → Option (List Char)
  | [] => none
  | c :: rest =>
    match urlHere (c :: rest) with
    | some u => some u
    | none => extractUrl rest

/-- The `MedicalDataset` dataclass of `browser.py`. -/
structure Record where
  name : List Char
  category : List Char
  description : List Char
  paper_url : Option (List Char)
  access_url : Option (List Char)
  data_url : Option (List Char)
  information_url : Option (List Char)
  overview_url : Option (List Char)
  requires_registration : Bool
  raw_text : List Char
deriving DecidableEq

/-- Accumulator of the metadata loop (`for line in lines[1:]`) of
`_parse_dataset_section`. -/
structure MetaAcc where
  desc : List (List Char)
  paper_url : Option (List Char)
  access_url : Option (List Char)
  data_url : Option (List Char)
  information_url : Option (List Char)
  overview_url : Option (List Char)
  reg : Bool
deriving DecidableEq

/-- Starting accumulator: no urls, no description lines, flag unset. -/
def initMeta : MetaAcc := ⟨[], none, none, none, none, none, false⟩

/-- One iteration of the metadata loop of `_parse_dataset_section`: skip
blank lines; record the registration phrase without consuming the line;
dispatch the five label forms to their URL fields (each assignment
overwrites, so the last labelled line wins); otherwise clean the line of
markdown and, if anything remains, append it to the description lines. -/
def metaStep (m : MetaAcc) (line : List Char) : MetaAcc :=
  let s := strip line
  if s = [] then m
  else
    let reg := m.reg || hasSub ("requires registration".data) (toLower s)
    let low := toLower s
    if ("paper:".data).isPrefixOf low then
      { m with reg := reg, paper_url := extractUrl s }
    else if ("access:".data).isPrefixOf low then
      { m with reg := reg, access_url := extractUrl s }
    else if ("data:".data).isPrefixOf low then
      { m with reg := reg, data_url := extractUrl s }
    else if ("information:".data).isPrefixOf low then
      { m with reg := reg, information_url := extractUrl s }
    else if ("overview:".data).isPrefixOf low then
      { m with reg := reg, overview_url := extractUrl s }
    else
      let clean := cleanMarkdown s
      { m with reg := reg,
               desc := if clean = [] then m.desc else m.desc ++ [clean] }

/-- `_parse_dataset_section`: turn an accumulated line buffer plus the
active category into the records appended to `self.datasets`: nothing
for an empty buffer, otherwise exactly one record (this implementation
has no check on the length of the stripped title). -/
def parseDatasetSection (lines : List (List Char)) (category : List Char) :
    List Record :=
  match lines with
  | [] => []
  | l0 :: rest =>
    let m := rest.foldl metaStep initMeta
    [{ name := subBold (strip l0)
       category := category
       description := joinSep [' '] m.desc
       paper_url := m.paper_url
       access_url := m.access_url
       data_url := m.data_url
       information_url := m.information_url
       overview_url := m.overview_url
       requires_registration := m.reg
       raw_text := joinSep ['\n'] lines }]

/-- Loop state of `parse_readme`: the current category, the accumulation
buffer, the in-dataset flag and `self.datasets`. -/
structure PState where
  category : List Char
  buf : List (List Char)
  inDataset : Bool
  out : List Record
deriving DecidableEq

/-- One iteration of the line loop of `parse_readme`: a category header
finalizes any pending buffer and switches category; a `***` separator
finalizes; a bold-title line (only with an active category) finalizes any
pending buffer and seeds a new one; any other nonblank line is appended
while inside a dataset; everything else is ignored. -/
def step (st : PState) (line : List Char) : PState :=
  match parseCategoryHeader line with
  | some t =>
    { category := strip t
      buf := []
      inDataset := false
      out := if st.buf ≠ [] ∧ st.category ≠ [] then
               st.out ++ parseDatasetSection st.buf st.category
             else st.out }
  | none =>
    if strip line = "***".data then
      { st with
        buf := []
        inDataset := false
        out := if st.buf ≠ [] ∧ st.category ≠ [] then
                 st.out ++ parseDatasetSection st.buf st.category
               else st.out }
    else if ("__".data).isPrefixOf (strip line) ∧ st.category ≠ [] then
      { st with
        buf := [line]
        inDataset := true
        out := if st.buf ≠ [] then
                 st.out ++ parseDatasetSection st.buf st.category
               else st.out }
    else if st.inDataset ∧ strip line ≠ [] then
      { st with buf := st.buf ++ [line] }
    else st

/-- The handle-last-dataset epilogue of `parse_readme`. -/
def flush (st : PState) : List Record :=
  if st.buf ≠ [] ∧ st.category ≠ [] then
    st.out ++ parseDatasetSection st.buf st.category
  else st.out

/-- `parse_readme` applied to document text by a browser whose
`self.datasets` already holds `prev`: the method appends to the list, it
never clears it. -/
def parseReadmeFrom (prev : List Record) (content : List Char) :
    List Record :=
  flush ((splitLines content).foldl step
    { category := [], buf := [], inDataset := false, out := prev })

/-- `parse_readme` on a freshly constructed browser. -/
def parseReadme (content : List Char) : List Record := parseReadmeFrom [] content

/-- The line loop plus epilogue applied to an already split line list
(so `parseReadme content = parseLines (splitLines content)`). -/
def parseLines (ls : List (List Char)) : List Record :=
  flush (ls.foldl step { category := [], buf := [], inDataset := false, out := [] })

/-- Invariant of the line loop: every emitted record has a nonempty name
and category, a pending buffer implies an active category and starts
with a bold-title line, and the in-dataset flag implies a pending
buffer. -/
def GoodState (st : PState) : Prop :=
  (∀ r ∈ st.out, r.name ≠ [] ∧ r.category ≠ []) ∧
  (st.buf ≠ [] → st.category ≠ [] ∧
    ∃ l0 tl, st.buf = l0 :: tl ∧
      (("__").data).isPrefixOf (strip l0) = true) ∧
  (st.inDataset = true → st.buf ≠ [])

/-- `search_datasets`: substring match of the query against
`f"{name} {description}"`, lowercasing both when not case sensitive;
matches keep document order. -/
def searchDatasets (ds : List Record) (query : List Char)
    (caseSensitive : Bool) : List Record :=
  let q := if caseSensitive then query else toLower query
  ds.filter fun d =>
    let t := d.name ++ ' ' :: d.description
    hasSub q (if caseSensitive then t else toLower t)

/-- The dict update `category_counts[c] = category_counts.get(c, 0) + 1`
of `list_categories`; Python dicts preserve insertion order, so a new key
is appended at the end. -/
def bump : List (List Char × Nat) → List Char → List (List Char × Nat)
  | [], c => [(c, 1)]
  | (c', n) :: rest, c =>
    if c' = c then (c', n + 1) :: rest else (c', n) :: bump rest c

/-- The `category_counts` dict of `list_categories`, as an
insertion-ordered association list. -/
def categoryCounts (ds : List Record) : List (List Char × Nat) :=
  ds.foldl (fun acc d => bump acc d.category) []

/-- Stable descending insertion by count: the new element goes before the
first element whose count does not exceed its own.  Inserting earlier
list elements last (see `sortDesc`), this computes exactly the stable
descending sort of the Python builtin
`sorted(..., key=lambda x: x[1], reverse=True)`. -/
def insertDesc (p : List Char × Nat) :
    List (List Char × Nat) → List (List Char × Nat)
  | [] => [p]
  | q :: rest => if q.2 ≤ p.2 then p :: q :: rest else q :: insertDesc p rest

/-- Stable descending insertion sort by count. -/
def sortDesc : List (List Char × Nat) → List (List Char × Nat)
  | [] => []
  | p :: rest => insertDesc p (sortDesc rest)

/-- `list_categories`: (category, count) pairs sorted by descending
count, ties kept in first-seen order. -/
def listCategories (ds : List Record) : List (List Char × Nat) :=
  sortDesc (categoryCounts ds)

/-- Which URL field the metadata dispatch of `_parse_dataset_section`
assigns from a line, if any. -/
inductive UrlField where
  | paper : UrlField
  | access : UrlField
  | dataF : UrlField
  | info : UrlField
  | overview : UrlField
deriving DecidableEq

/-- The elif chain of the metadata loop, as a classifier: the field the
line is dispatched to, or none for blank and description lines. -/
def lineUrlField (line : List Char) : Option UrlField :=
  let s := strip line
  if s = [] then none
  else
    let low := toLower s
    if ("paper:".data).isPrefixOf low then some .paper
    else if ("access:".data).isPrefixOf low then some .access
    else if ("data:".data).isPrefixOf low then some .dataF
    else if ("information:".data).isPrefixOf low then some .info
    else if ("overview:".data).isPrefixOf low then some .overview
    else none

/-- The URL field of the accumulator selected by `f`. -/
def MetaAcc.urlOf (m : MetaAcc) : UrlField → Option (List Char)
  | .paper => m.paper_url
  | .access => m.access_url
  | .dataF => m.data_url
  | .info => m.information_url
  | .overview => m.overview_url

/-- The lines of a buffer that the metadata loop dispatches to field
`f`. -/
def fieldLines (f : UrlField) (ls : List (List Char)) : List (List Char) :=
  ls.filter fun l => lineUrlField l = some f

/-- The URL a record carries in field `f` after the metadata loop: the
URL extracted from the last line dispatched to `f`, or none when no line
was. -/
def lastFieldUrl (f : UrlField) (ls : List (List Char)) :
    Option (List Char) :=
  match (fieldLines f ls).getLast? with
  | none => none
  | some l => extractUrl (strip l)

/-- The description lengths the statistics loop collects: one entry per
record with a nonempty (truthy) description, in record order. -/
def descLens (ds : List Record) : List Nat :=
  (ds.filter fun d => d.description ≠ []).map fun d => d.description.length

/-- Python truthiness of an optional string field. -/
def pyTruthy : Option (List Char) → Bool
  | none => false
  | some s => !s.isEmpty

/-- The running `min_description_length` of `create_summary_statistics`:
Python initializes it to the float infinity sentinel and takes minima
with integer lengths, so its value is either the sentinel or a natural
number (the arithmetic on this set is exact, no rounding is involved). -/
inductive MinLen where
  | inf : MinLen
  | val : Nat → MinLen
deriving DecidableEq

/-- `min(running, n)` where the running value may be the sentinel. -/
def minUpdate : MinLen → Nat → MinLen
  | .inf, n => .val n
  | .val m, n => .val (min m n)

/-- The `description_statistics` sub-dict of `create_summary_statistics`.
The average is modelled as an exact rational; Python computes a float,
which only matters after the division is actually executed (no claim
here depends on a computed average). -/
structure DescStats where
  with_description : Nat
  average_description_length : ℚ
  max_description_length : Nat
  min_description_length : MinLen
deriving DecidableEq

/-- The statistics dict of `create_summary_statistics`.  The categories
set is modelled through `category_counts`, whose keys are exactly the
distinct categories in first-seen order (`unique_categories` is their
number; the iteration order of a Python set is unspecified and no claim
depends on it). -/
structure Stats where
  total_datasets : Nat
  unique_categories : Nat
  category_counts : List (List Char × Nat)
  datasets_with_papers : Nat
  datasets_with_access : Nat
  datasets_requiring_registration : Nat
  paper_urls : Nat
  access_urls : Nat
  data_urls : Nat
  information_urls : Nat
  overview_urls : Nat
  description_statistics : DescStats
deriving DecidableEq

/-- Accumulator of the dataset loop of `create_summary_statistics`. -/
structure StatsAcc where
  category_counts : List (List Char × Nat)
  datasets_with_papers : Nat
  datasets_with_access : Nat
  datasets_requiring_registration : Nat
  paper_urls : Nat
  access_urls : Nat
  data_urls : Nat
  information_urls : Nat
  overview_urls : Nat
  with_description : Nat
  description_lengths : List Nat
  max_description_length : Nat
  min_description_length : MinLen
deriving DecidableEq

/-- Starting accumulator of the statistics loop. -/
def initStatsAcc : StatsAcc :=
  ⟨[], 0, 0, 0, 0, 0, 0, 0, 0, 0, [], 0, .inf⟩

/-- One iteration of the dataset loop of `create_summary_statistics`:
category tracking, URL counting (a record with any truthy access-type
URL counts once for `datasets_with_access`), registration counting, and
the running description-length statistics. -/
def statsStep (acc : StatsAcc) (d : Record) : StatsAcc :=
  let acc := { acc with
    category_counts := bump acc.category_counts d.category }
  let acc := if pyTruthy d.paper_url then
      { acc with datasets_with_papers := acc.datasets_with_papers + 1,
                 paper_urls := acc.paper_urls + 1 }
    else acc
  let acc := { acc with
    access_urls := acc.access_urls + (if pyTruthy d.access_url then 1 else 0)
    data_urls := acc.data_urls + (if pyTruthy d.data_url then 1 else 0)
    information_urls :=
      acc.information_urls + (if pyTruthy d.information_url then 1 else 0)
    overview_urls :=
      acc.overview_urls + (if pyTruthy d.overview_url then 1 else 0)
    datasets_with_access := acc.datasets_with_access +
      (if pyTruthy d.access_url || pyTruthy d.data_url ||
          pyTruthy d.information_url || pyTruthy d.overview_url
       then 1 else 0) }
  let acc := if d.requires_registration then
      { acc with datasets_requiring_registration :=
          acc.datasets_requiring_registration + 1 }
    else acc
  if d.description ≠ [] then
    { acc with
      with_description := acc.with_description + 1
      description_lengths := acc.description_lengths ++ [d.description.length]
      max_description_length :=
        max acc.max_description_length d.description.length
      min_description_length :=
        minUpdate acc.min_description_length d.description.length }
  else acc

/-- The body of `create_summary_statistics` for a nonempty list: run the
loop, then compute the average when any description was seen, otherwise
reset the minimum from the sentinel to 0. -/
def computeStats (ds : List Record) : Stats :=
  let a := ds.foldl statsStep initStatsAcc
  { total_datasets := ds.length
    unique_categories := a.category_counts.length
    category_counts := a.category_counts
    datasets_with_papers := a.datasets_with_papers
    datasets_with_access := a.datasets_with_access
    datasets_requiring_registration := a.datasets_requiring_registration
    paper_urls := a.paper_urls
    access_urls := a.access_urls
    data_urls := a.data_urls
    information_urls := a.information_urls
    overview_urls := a.overview_urls
    description_statistics :=
      if a.description_lengths ≠ [] then
        { with_description := a.with_description
          average_description_length :=
            (a.description_lengths.sum : ℚ) /
              (a.description_lengths.length : ℚ)
          max_description_length := a.max_description_length
          min_description_length := a.min_description_length }
      else
        { with_description := a.with_description
          average_description_length := 0
          max_description_length := a.max_description_length
          min_description_length := .val 0 } }

/-- The Python exceptions `create_summary_statistics` raises. -/
inductive PyErr where
  | typeErr : PyErr
  | valueErr : PyErr
deriving DecidableEq

/-- The argument of `create_summary_statistics` as its isinstance check
sees it: an actual list of records, or any non-list value. -/
inductive StatsArg where
  | list (ds : List Record) : StatsArg
  | nonList : StatsArg
deriving DecidableEq

/-- `create_summary_statistics`: TypeError for a non-list argument,
ValueError for the empty list, otherwise the statistics dict. -/
def create_summary_statistics : StatsArg → Except PyErr Stats
  | .nonList => .error .typeErr
  | .list ds => if ds = [] then .error .valueErr else .ok (computeStats ds)

/-- The position of the first record of category `c` in the record
list. -/
def firstApp (ds : List Record) (c : List Char) : Nat :=
  ds.findIdx fun d => decide (d.category = c)

/-- The six-part example document of spec section 8. -/
def exampleDoc : List Char :=
  ("## 1. Imaging\n\n__Alpha Set__\n\nA chest scan corpus. Requires registration.\n\nPaper: https://x.org/a\n\n***\n\n__Beta Set__\n\nAccess: https://y.org/b").data

/-- The record the example document yields for Alpha Set. -/
def alphaRec : Record :=
  { name := ("Alpha Set").data
    category := ("Imaging").data
    description := ("A chest scan corpus. Requires registration.").data
    paper_url := some ("https://x.org/a").data
    access_url := none
    data_url := none
    information_url := none
    overview_url := none
    requires_registration := true
    raw_text := ("__Alpha Set__\nA chest scan corpus. Requires registration.\nPaper: https://x.org/a").data }

/-- The record the example document yields for Beta Set. -/
def betaRec : Record :=
  { name := ("Beta Set").data
    category := ("Imaging").data
    description := []
    paper_url := none
    access_url := some ("https://y.org/b").data
    data_url := none
    information_url := none
    overview_url := none
    requires_registration := false
    raw_text := ("__Beta Set__\nAccess: https://y.org/b").data }

/-- A one-record document (used for the parse-twice analysis). -/
def tinyDoc : List Char := ("## 1. A\n__Test Set__").data

/-- Two bold titles with no separator between them (missing `***`). -/
def twoTitleDoc : List Char :=
  ("## 1. Imaging\n__Alpha Set__\n__Beta Set__").data

/-- A record whose stripped title has exactly 2 characters. -/
def shortTitleDoc : List Char := ("## 1. Imaging\n__Ab__").data

/-- The record produced from a buffer whose only metadata line carries
the overview label. -/
def overviewRec : Record :=
  { name := ("Test Set").data
    category := ("Imaging").data
    description := []
    paper_url := none
    access_url := none
    data_url := none
    information_url := none
    overview_url := some (("https://o.org/x").data)
    requires_registration := false
    raw_text := ("__Test Set__\nOverview: https://o.org/x").data }

/-- A record of category B (for the ordering witness). -/
def recCatB : Record :=
  { name := ("First Set").data
    category := ("B").data
    description := []
    paper_url := none
    access_url := none
    data_url := none
    information_url := none
    overview_url := none
    requires_registration := false
    raw_text := [] }

/-- A record of category A (for the ordering witness). -/
def recCatA : Record :=
  { name := ("Second Set").data
    category := ("A").data
    description := []
    paper_url := none
    access_url := none
    data_url := none
    information_url := none
    overview_url := none
    requires_registration := false
    raw_text := [] }

/- Helper lemmas about the metadata loop and the line loop. -/

/-- The registration flag after one metadata step: the previous flag, or
the phrase check on the stripped line (a blank line cannot contain the
nonempty phrase, so the blank-skip is absorbed). -/
theorem metaStep_reg (m : MetaAcc) (line : List Char) :
    (metaStep m line).reg =
      (m.reg || hasSub (("requires registration").data)
        (toLower (strip line))) := by
  simp only [metaStep]
  split_ifs with h1 h2 h3 h4 h5 h6
  · rw [h1]
    rw [(by decide :
      hasSub (("requires registration").data) (toLower []) = false)]
    exact (Bool.or_false _).symm
  all_goals rfl

/-- The registration flag after the whole metadata loop. -/
theorem foldl_metaStep_reg (ls : List (List Char)) (m : MetaAcc) :
    (ls.foldl metaStep m).reg =
      (m.reg || ls.any fun l =>
        hasSub (("requires registration").data) (toLower (strip l))) := by
  induction ls generalizing m with
  | nil => simp
  | cons l ls ih =>
    simp only [List.foldl_cons, List.any_cons]
    rw [ih, metaStep_reg, Bool.or_assoc]

/-- One metadata step writes exactly the URL field the elif chain
dispatches the line to, and leaves the other URL fields unchanged. -/
theorem metaStep_urlOf (m : MetaAcc) (line : List Char) (f : UrlField) :
    (metaStep m line).urlOf f =
      if lineUrlField line = some f then extractUrl (strip line)
      else m.urlOf f := by
  simp only [metaStep, lineUrlField]
  split_ifs with h0 h1 h2 h3 h4 h5 <;> cases f <;>
    simp_all [MetaAcc.urlOf]

/-- After the metadata loop, each URL field holds the URL of the last
line dispatched to it, or its starting value when no line was. -/
theorem foldl_metaStep_urlOf (f : UrlField) (ls : List (List Char))
    (m : MetaAcc) :
    (ls.foldl metaStep m).urlOf f =
      match (fieldLines f ls).getLast? with
      | none => m.urlOf f
      | some l => extractUrl (strip l) := by
  induction ls using List.reverseRecOn with
  | nil => rfl
  | append_singleton ls l ih =>
    rw [List.foldl_append, List.foldl_cons, List.foldl_nil, metaStep_urlOf]
    by_cases hf : lineUrlField l = some f
    · have hfl : fieldLines f (ls ++ [l]) = fieldLines f ls ++ [l] := by
        simp [fieldLines, List.filter_append, List.filter_singleton, hf]
      rw [if_pos hf, hfl, List.getLast?_concat]
    · have hfl : fieldLines f (ls ++ [l]) = fieldLines f ls := by
        simp [fieldLines, List.filter_append, List.filter_singleton, hf]
      rw [if_neg hf, hfl, ih]

/-- `step` only appends to the output list; the rest of the state does
not depend on the output accumulated so far. -/
theorem step_out (c : List Char) (b : List (List Char)) (d : Bool)
    (O : List Record) (line : List Char) :
    step ⟨c, b, d, O⟩ line =
      { step ⟨c, b, d, []⟩ line with
        out := O ++ (step ⟨c, b, d, []⟩ line).out } := by
  simp only [step]
  cases h : parseCategoryHeader line <;> split_ifs <;> simp

/-- The line loop only appends to the output list. -/
theorem foldl_step_out (ls : List (List Char)) (c : List Char)
    (b : List (List Char)) (d : Bool) (O : List Record) :
    ls.foldl step ⟨c, b, d, O⟩ =
      { ls.foldl step ⟨c, b, d, []⟩ with
        out := O ++ (ls.foldl step ⟨c, b, d, []⟩).out } := by
  induction ls generalizing c b d O with
  | nil => simp
  | cons l ls ih =>
    simp only [List.foldl_cons]
    rw [step_out c b d O l]
    rcases hs : step ⟨c, b, d, []⟩ l with ⟨c2, b2, d2, r⟩
    simp only []
    rw [ih c2 b2 d2 (O ++ r), ih c2 b2 d2 r]
    simp [List.append_assoc]

/-- A line whose stripped form begins with the bold marker is not a
category header (a header must begin with two hash marks). -/
theorem parseCategoryHeader_of_title (line : List Char)
    (h : (("__").data).isPrefixOf (strip line) = true) :
    parseCategoryHeader line = none := by
  obtain ⟨t, ht⟩ : ∃ t, strip line = '_' :: '_' :: t := by
    obtain ⟨t, ht⟩ := List.isPrefixOf_iff_prefix.mp h
    exact ⟨t, ht.symm⟩
  unfold parseCategoryHeader
  rw [ht]
  rfl

/-- Loop body of `create_summary_statistics`: collected description
lengths after one record. -/
theorem statsStep_dlens (acc : StatsAcc) (d : Record) :
    (statsStep acc d).description_lengths =
      if d.description = [] then acc.description_lengths
      else acc.description_lengths ++ [d.description.length] := by
  simp only [statsStep]
  split_ifs <;> simp_all

/-- Loop body of `create_summary_statistics`: with-description counter
after one record. -/
theorem statsStep_wdesc (acc : StatsAcc) (d : Record) :
    (statsStep acc d).with_description =
      if d.description = [] then acc.with_description
      else acc.with_description + 1 := by
  simp only [statsStep]
  split_ifs <;> simp_all

/-- Loop body of `create_summary_statistics`: running maximum after one
record. -/
theorem statsStep_maxd (acc : StatsAcc) (d : Record) :
    (statsStep acc d).max_description_length =
      if d.description = [] then acc.max_description_length
      else max acc.max_description_length d.description.length := by
  simp only [statsStep]
  split_ifs <;> simp_all

/-- Loop body of `create_summary_statistics`: running minimum after one
record. -/
theorem statsStep_mind (acc : StatsAcc) (d : Record) :
    (statsStep acc d).min_description_length =
      if d.description = [] then acc.min_description_length
      else minUpdate acc.min_description_length d.description.length := by
  simp only [statsStep]
  split_ifs <;> simp_all

/-- The description lengths of a record list, one cons per record with a
truthy description. -/
theorem descLens_cons (d : Record) (ds : List Record) :
    descLens (d :: ds) =
      if d.description = [] then descLens ds
      else d.description.length :: descLens ds := by
  by_cases hd : d.description = [] <;> simp [descLens, hd]

/-- The description-statistics components after the whole loop, in terms
of the collected description lengths. -/
theorem foldl_statsStep_desc (ds : List Record) (acc : StatsAcc) :
    (ds.foldl statsStep acc).description_lengths =
        acc.description_lengths ++ descLens ds ∧
    (ds.foldl statsStep acc).with_description =
        acc.with_description + (descLens ds).length ∧
    (ds.foldl statsStep acc).max_description_length =
        (descLens ds).foldl max acc.max_description_length ∧
    (ds.foldl statsStep acc).min_description_length =
        (descLens ds).foldl minUpdate acc.min_description_length := by
  induction ds generalizing acc with
  | nil => simp [descLens]
  | cons d ds ih =>
    simp only [List.foldl_cons]
    obtain ⟨i1, i2, i3, i4⟩ := ih (statsStep acc d)
    refine ⟨?_, ?_, ?_, ?_⟩
    · rw [i1, statsStep_dlens, descLens_cons]
      by_cases hd : d.description = [] <;> simp [hd]
    · rw [i2, statsStep_wdesc, descLens_cons]
      by_cases hd : d.description = [] <;> simp [hd] <;> omega
    · rw [i3, statsStep_maxd, descLens_cons]
      by_cases hd : d.description = [] <;> simp [hd]
    · rw [i4, statsStep_mind, descLens_cons]
      by_cases hd : d.description = [] <;> simp [hd]

/-- Folding the sentinel minimum from a numeric seed is the numeric
minimum fold. -/
theorem foldl_minUpdate_val (rest : List Nat) (n : Nat) :
    rest.foldl minUpdate (.val n) = .val (rest.foldl min n) := by
  induction rest generalizing n with
  | nil => rfl
  | cons x xs ih =>
    simp only [List.foldl_cons, minUpdate]
    exact ih _

/-- A minimum fold is bounded by its seed. -/
theorem foldl_min_le_seed (ys : List Nat) (s : Nat) : ys.foldl min s ≤ s := by
  induction ys generalizing s with
  | nil => simp
  | cons y ys ih => exact le_trans (ih _) (Nat.min_le_left _ _)

/-- A minimum fold is bounded by every list element. -/
theorem foldl_min_le_mem (ys : List Nat) (s x : Nat) (hx : x ∈ ys) :
    ys.foldl min s ≤ x := by
  induction ys generalizing s with
  | nil => simp at hx
  | cons y ys ih =>
    rw [List.mem_cons] at hx
    rcases hx with rfl | hx
    · exact le_trans (foldl_min_le_seed ys _) (Nat.min_le_right _ _)
    · exact ih _ hx

/-- A minimum fold lands on its seed or on a list element. -/
theorem foldl_min_mem (ys : List Nat) (s : Nat) :
    ys.foldl min s ∈ s :: ys := by
  induction ys generalizing s with
  | nil => simp
  | cons y ys ih =>
    simp only [List.foldl_cons]
    have h := ih (min s y)
    rw [List.mem_cons] at h ⊢
    rcases h with h | h
    · rcases Nat.le_total s y with hle | hle
      · left
        rw [h, Nat.min_eq_left hle]
      · right
        rw [List.mem_cons]
        left
        rw [h, Nat.min_eq_right hle]
    · right
      rw [List.mem_cons]
      right
      exact h

/-- A maximum fold dominates its seed. -/
theorem le_foldl_max_seed (ys : List Nat) (s : Nat) : s ≤ ys.foldl max s := by
  induction ys generalizing s with
  | nil => simp
  | cons y ys ih => exact le_trans (Nat.le_max_left _ _) (ih _)

/-- A maximum fold dominates every list element. -/
theorem le_foldl_max_mem (ys : List Nat) (s x : Nat) (hx : x ∈ ys) :
    x ≤ ys.foldl max s := by
  induction ys generalizing s with
  | nil => simp at hx
  | cons y ys ih =>
    rw [List.mem_cons] at hx
    rcases hx with rfl | hx
    · exact le_trans (Nat.le_max_right _ _) (le_foldl_max_seed ys _)
    · exact ih _ hx

/-- A maximum fold lands on its seed or on a list element. -/
theorem foldl_max_mem (ys : List Nat) (s : Nat) :
    ys.foldl max s ∈ s :: ys := by
  induction ys generalizing s with
  | nil => simp
  | cons y ys ih =>
    simp only [List.foldl_cons]
    have h := ih (max s y)
    rw [List.mem_cons] at h ⊢
    rcases h with h | h
    · rcases Nat.le_total s y with hle | hle
      · right
        rw [List.mem_cons]
        left
        rw [h, Nat.max_eq_right hle]
      · left
        rw [h, Nat.max_eq_left hle]
    · right
      rw [List.mem_cons]
      right
      exact h

/-- The body found by `findBoldClose` is nonempty. -/
theorem findBoldClose_body_ne (l body after : List Char)
    (h : findBoldClose l = some (body, after)) : body ≠ [] := by
  induction l generalizing body after with
  | nil => simp [findBoldClose] at h
  | cons c rest ih =>
    unfold findBoldClose at h
    split_ifs at h
    · simp only [Option.some.injEq, Prod.mk.injEq] at h
      rw [← h.1]
      simp
    · split at h
      · simp only [Option.some.injEq, Prod.mk.injEq] at h
        rw [← h.1]
        simp
      · exact absurd h (by simp)

/-- The bold substitution of a text beginning with the bold marker is
nonempty: the first scan step either replaces a leading `__body__` by
its nonempty body or emits the leading underscore. -/
theorem subBold_title_ne (t : List Char) : subBold ('_' :: '_' :: t) ≠ [] := by
  have he : subBold ('_' :: '_' :: t) =
      match findBoldClose t with
      | some (body, after) => body ++ subBoldF (t.length + 1) after
      | none => '_' :: subBoldF (t.length + 1) ('_' :: t) := rfl
  rw [he]
  cases hfb : findBoldClose t with
  | none => simp
  | some pa =>
    obtain ⟨body, after⟩ := pa
    have hb := findBoldClose_body_ne t body after hfb
    simp [List.append_eq_nil, hb]

/-- The head surviving a `dropWhile` fails the predicate. -/
theorem dropWhile_head_not (p : Char → Bool) (l res : List Char) (c : Char)
    (h : l.dropWhile p = c :: res) : p c = false := by
  induction l generalizing res with
  | nil => simp at h
  | cons a l ih =>
    rw [List.dropWhile_cons] at h
    split_ifs at h with ha
    · exact ih res h
    · injection h with h1 h2
      subst h1
      simpa using ha

/-- A list with a non-whitespace head does not strip to nothing. -/
theorem strip_ne_nil_of_head (c : Char) (l : List Char)
    (hc : isSpace c = false) : strip (c :: l) ≠ [] := by
  intro he
  unfold strip at he
  rw [List.dropWhile_cons, if_neg (by simp [hc])] at he
  rw [List.reverse_eq_nil_iff, List.dropWhile_eq_nil_iff] at he
  have hce := he c (by simp)
  rw [hc] at hce
  exact Bool.false_ne_true hce

/-- A matched category title strips to a nonempty string (the capture
group never begins with whitespace). -/
theorem parseCategoryHeader_title_ne (line t : List Char)
    (h : parseCategoryHeader line = some t) : strip t ≠ [] := by
  simp only [parseCategoryHeader] at h
  split at h
  · rename_i r0 hseq0
    by_cases hA : r0.takeWhile isSpace = []
    · rw [if_pos hA] at h
      exact absurd h (by simp)
    · rw [if_neg hA] at h
      by_cases hB : (r0.dropWhile isSpace).takeWhile Char.isDigit = []
      · rw [if_pos hB] at h
        exact absurd h (by simp)
      · rw [if_neg hB] at h
        split at h
        · rename_i r3 hseq3
          by_cases hC : r3.takeWhile isSpace = []
          · rw [if_pos hC] at h
            exact absurd h (by simp)
          · rw [if_neg hC] at h
            by_cases hD : r3.dropWhile isSpace = []
            · rw [if_pos hD] at h
              exact absurd h (by simp)
            · rw [if_neg hD] at h
              have ht : t = r3.dropWhile isSpace := by
                simpa using h.symm
              cases hte : r3.dropWhile isSpace with
              | nil => exact absurd hte hD
              | cons c res =>
                have hcs := dropWhile_head_not isSpace r3 res c hte
                rw [ht, hte]
                exact strip_ne_nil_of_head c res hcs
        · exact absurd h (by simp)
  · exact absurd h (by simp)

/-- Every record finalized from a buffer carries the category it was
finalized with. -/
theorem parseDatasetSection_category (lines : List (List Char))
    (cat : List Char) (r : Record)
    (hr : r ∈ parseDatasetSection lines cat) : r.category = cat := by
  cases lines with
  | nil => simp [parseDatasetSection] at hr
  | cons l0 rest =>
    simp only [parseDatasetSection, List.mem_singleton] at hr
    subst hr
    rfl

/-- Appending the records finalized from a title-headed buffer with a
nonempty category preserves name/category nonemptiness. -/
theorem good_append_parse (out : List Record) (buf : List (List Char))
    (cat : List Char)
    (hout : ∀ r ∈ out, r.name ≠ [] ∧ r.category ≠ [])
    (hbuf : ∀ l0 tl, buf = l0 :: tl →
      (("__").data).isPrefixOf (strip l0) = true)
    (hcat : cat ≠ []) :
    ∀ r ∈ out ++ parseDatasetSection buf cat,
      r.name ≠ [] ∧ r.category ≠ [] := by
  intro r hr
  rw [List.mem_append] at hr
  rcases hr with hr | hr
  · exact hout r hr
  · cases buf with
    | nil => simp [parseDatasetSection] at hr
    | cons l0 tl =>
      simp only [parseDatasetSection, List.mem_singleton] at hr
      subst hr
      refine ⟨?_, hcat⟩
      show subBold (strip l0) ≠ []
      have hp := hbuf l0 tl rfl
      obtain ⟨t2, ht2⟩ := List.isPrefixOf_iff_prefix.mp hp
      rw [← ht2]
      exact subBold_title_ne t2

/-- One line-loop step preserves the loop invariant. -/
theorem step_good (st : PState) (line : List Char) (hg : GoodState st) :
    GoodState (step st line) := by
  obtain ⟨hout, hpend, hind⟩ := hg
  have hfinal : ∀ hc : st.buf ≠ [] ∧ st.category ≠ [],
      ∀ r ∈ st.out ++ parseDatasetSection st.buf st.category,
        r.name ≠ [] ∧ r.category ≠ [] := by
    intro hc
    refine good_append_parse st.out st.buf st.category hout ?_ hc.2
    intro l0 tl hb
    obtain ⟨-, l0', tl', hb', hp'⟩ := hpend (by simp [hb])
    rw [hb] at hb'
    injection hb' with e1 e2
    rw [e1]
    exact hp'
  unfold step
  cases hh : parseCategoryHeader line with
  | some t =>
    refine ⟨?_, by simp, by simp⟩
    intro r hr
    have hr2 : r ∈ (if st.buf ≠ [] ∧ st.category ≠ [] then
        st.out ++ parseDatasetSection st.buf st.category else st.out) := hr
    by_cases hc : st.buf ≠ [] ∧ st.category ≠ []
    · rw [if_pos hc] at hr2
      exact hfinal hc r hr2
    · rw [if_neg hc] at hr2
      exact hout r hr2
  | none =>
    by_cases hsep : strip line = ("***").data
    · rw [if_pos hsep]
      refine ⟨?_, by simp, by simp⟩
      intro r hr
      have hr2 : r ∈ (if st.buf ≠ [] ∧ st.category ≠ [] then
          st.out ++ parseDatasetSection st.buf st.category else st.out) := hr
      by_cases hc : st.buf ≠ [] ∧ st.category ≠ []
      · rw [if_pos hc] at hr2
        exact hfinal hc r hr2
      · rw [if_neg hc] at hr2
        exact hout r hr2
    · rw [if_neg hsep]
      by_cases hti : (("__").data).isPrefixOf (strip line) = true ∧
          st.category ≠ []
      · rw [if_pos hti]
        refine ⟨?_, ?_, ?_⟩
        · intro r hr
          have hr2 : r ∈ (if st.buf ≠ [] then
              st.out ++ parseDatasetSection st.buf st.category
              else st.out) := hr
          by_cases hb : st.buf ≠ []
          · rw [if_pos hb] at hr2
            exact hfinal ⟨hb, hti.2⟩ r hr2
          · rw [if_neg hb] at hr2
            exact hout r hr2
        · intro _
          exact ⟨hti.2, line, [], rfl, hti.1⟩
        · intro _
          simp
      · rw [if_neg hti]
        by_cases hacc : st.inDataset = true ∧ strip line ≠ []
        · rw [if_pos hacc]
          refine ⟨hout, ?_, ?_⟩
          · intro _
            obtain ⟨hcat, l0, tl, hb, hp⟩ := hpend (hind hacc.1)
            refine ⟨hcat, l0, tl ++ [line], ?_, hp⟩
            show st.buf ++ [line] = l0 :: (tl ++ [line])
            rw [hb]
            rfl
          · intro _
            show st.buf ++ [line] ≠ []
            simp
        · rw [if_neg hacc]
          exact ⟨hout, hpend, hind⟩

/-- The line loop preserves the invariant. -/
theorem foldl_step_good (ls : List (List Char)) (st : PState)
    (hg : GoodState st) : GoodState (ls.foldl step st) := by
  induction ls generalizing st with
  | nil => exact hg
  | cons l ls ih => exact ih _ (step_good st l hg)

/-- C8 part one as a lemma: every parsed record has a nonempty name and
a nonempty category. -/
theorem parseLines_good (ls : List (List Char)) (r : Record)
    (hr : r ∈ parseLines ls) : r.name ≠ [] ∧ r.category ≠ [] := by
  have hg : GoodState (ls.foldl step ⟨[], [], false, []⟩) :=
    foldl_step_good ls _ ⟨by simp, by simp, by simp⟩
  obtain ⟨hout, hpend, -⟩ := hg
  set F := ls.foldl step (⟨[], [], false, []⟩ : PState) with hF
  have hr2 : r ∈ (if F.buf ≠ [] ∧ F.category ≠ [] then
      F.out ++ parseDatasetSection F.buf F.category else F.out) := hr
  by_cases hc : F.buf ≠ [] ∧ F.category ≠ []
  · rw [if_pos hc] at hr2
    refine good_append_parse F.out F.buf F.category hout ?_ hc.2 r hr2
    intro l0 tl hb
    obtain ⟨-, l0', tl', hb', hp'⟩ := hpend (by simp [hb])
    rw [hb] at hb'
    injection hb' with e1 e2
    rw [e1]
    exact hp'
  · rw [if_neg hc] at hr2
    exact hout r hr2

/-- A non-header line leaves the pristine starting state fixed. -/
theorem step_idle (l : List Char) (hl : parseCategoryHeader l = none) :
    step ⟨[], [], false, []⟩ l = ⟨[], [], false, []⟩ := by
  unfold step
  rw [hl]
  split_ifs <;> simp_all

/-- A document without headers leaves the whole loop in the starting
state. -/
theorem foldl_step_no_header (ls : List (List Char)) :
    (∀ l ∈ ls, parseCategoryHeader l = none) →
    ls.foldl step ⟨[], [], false, []⟩ = ⟨[], [], false, []⟩ := by
  induction ls with
  | nil => intro _; rfl
  | cons l ls ih =>
    intro hl
    rw [List.foldl_cons, step_idle l (hl l (by simp))]
    exact ih fun l' h' => hl l' (by simp [h'])

/-- C8 part two as a lemma: no record is emitted before any header. -/
theorem parseLines_no_header (ls : List (List Char))
    (hl : ∀ l ∈ ls, parseCategoryHeader l = none) : parseLines ls = [] := by
  unfold parseLines
  rw [foldl_step_no_header ls hl]
  rfl

/-- A header-free prefix of any document contributes nothing: the lines
before the first header are invisible to the parse. -/
theorem parseLines_headerless (pre rest : List (List Char))
    (hl : ∀ l ∈ pre, parseCategoryHeader l = none) :
    parseLines (pre ++ rest) = parseLines rest := by
  unfold parseLines
  rw [List.foldl_append, foldl_step_no_header pre hl]

/-- The epilogue, written as an unconditional append. -/
theorem flush_eq (st : PState) :
    flush st = st.out ++ (if st.buf ≠ [] ∧ st.category ≠ [] then
      parseDatasetSection st.buf st.category else []) := by
  unfold flush
  split_ifs <;> simp

/-- A non-header line keeps the category and only appends records of the
current category. -/
theorem step_no_header_out (st : PState) (l : List Char)
    (hl : parseCategoryHeader l = none) :
    (step st l).category = st.category ∧
    ∃ r0, (step st l).out = st.out ++ r0 ∧
      ∀ r ∈ r0, r.category = st.category := by
  unfold step
  rw [hl]
  by_cases h1 : strip l = ("***").data
  · rw [if_pos h1]
    refine ⟨rfl, ?_⟩
    by_cases hc : st.buf ≠ [] ∧ st.category ≠ []
    · exact ⟨parseDatasetSection st.buf st.category, by simp [hc],
        fun r hr => parseDatasetSection_category _ _ r hr⟩
    · exact ⟨[], by simp [hc], by simp⟩
  · rw [if_neg h1]
    by_cases h2 : (("__").data).isPrefixOf (strip l) = true ∧
        st.category ≠ []
    · rw [if_pos h2]
      refine ⟨rfl, ?_⟩
      by_cases hb : st.buf ≠ []
      · exact ⟨parseDatasetSection st.buf st.category, by simp [hb],
          fun r hr => parseDatasetSection_category _ _ r hr⟩
      · exact ⟨[], by simp [hb], by simp⟩
    · rw [if_neg h2]
      by_cases h3 : st.inDataset = true ∧ strip l ≠ []
      · rw [if_pos h3]
        exact ⟨rfl, [], by simp, by simp⟩
      · rw [if_neg h3]
        exact ⟨rfl, [], by simp, by simp⟩

/-- A header-free segment keeps the category and only appends records of
that category. -/
theorem foldl_step_no_header_out (s : List (List Char)) (st : PState)
    (hs : ∀ l ∈ s, parseCategoryHeader l = none) :
    (s.foldl step st).category = st.category ∧
    ∃ rest, (s.foldl step st).out = st.out ++ rest ∧
      ∀ r ∈ rest, r.category = st.category := by
  induction s generalizing st with
  | nil => exact ⟨rfl, [], by simp, by simp⟩
  | cons l s ih =>
    obtain ⟨hc0, r0, ho0, hr0⟩ := step_no_header_out st l (hs l (by simp))
    obtain ⟨hc1, rest, ho1, hr1⟩ :=
      ih (step st l) (fun l' h' => hs l' (by simp [h']))
    rw [List.foldl_cons]
    refine ⟨by rw [hc1, hc0], r0 ++ rest, ?_, ?_⟩
    · rw [ho1, ho0, List.append_assoc]
    · intro r hr
      rw [List.mem_append] at hr
      rcases hr with hr | hr
      · exact hr0 r hr
      · exact (hr1 r hr).trans hc0

/-- C8 part three as a lemma: all records parsed after a header, with no
further header following, carry that header's trimmed title as their
category. -/
theorem category_provenance (p : List (List Char)) (h : List Char)
    (t : List Char) (s : List (List Char))
    (hh : parseCategoryHeader h = some t)
    (hs : ∀ l ∈ s, parseCategoryHeader l = none) :
    ∃ rest, parseLines (p ++ h :: s) = parseLines (p ++ [h]) ++ rest ∧
      ∀ r ∈ rest, r.category = strip t := by
  set A := (p ++ [h]).foldl step (⟨[], [], false, []⟩ : PState) with hA
  have hcatA : A.category = strip t := by
    rw [hA, List.foldl_append, List.foldl_cons, List.foldl_nil]
    unfold step
    rw [hh]
  have hbufA : A.buf = [] := by
    rw [hA, List.foldl_append, List.foldl_cons, List.foldl_nil]
    unfold step
    rw [hh]
  have hPL1 : parseLines (p ++ [h]) = A.out := by
    unfold parseLines flush
    rw [← hA, if_neg (by simp [hbufA])]
  obtain ⟨hcatF, rest, hoF, hrF⟩ := foldl_step_no_header_out s A hs
  set F := s.foldl step A with hF
  have hPL2 : parseLines (p ++ h :: s) = flush F := by
    unfold parseLines
    rw [show p ++ h :: s = (p ++ [h]) ++ s by simp, List.foldl_append,
      ← hA, ← hF]
  by_cases hc : F.buf ≠ [] ∧ F.category ≠ []
  · refine ⟨rest ++ parseDatasetSection F.buf F.category, ?_, ?_⟩
    · rw [hPL2]
      unfold flush
      rw [if_pos hc, hoF, hPL1, List.append_assoc]
    · intro r hr
      rw [List.mem_append] at hr
      rcases hr with hr | hr
      · exact (hrF r hr).trans hcatA
      · exact (parseDatasetSection_category F.buf F.category r hr).trans
          (hcatF.trans hcatA)
  · refine ⟨rest, ?_, fun r hr => (hrF r hr).trans hcatA⟩
    rw [hPL2]
    unfold flush
    rw [if_neg hc, hoF, hPL1]

/-- C8 part three in full generality: for any section of any document —
a header `h` titled `t`, its header-free body `s`, and a remainder that
is either empty or begins with the next header — the records the parse
emits between the prefix ending at `h` and the prefix ending at the
next header (or the end) all carry the trimmed title of `h`, and the
rest of the document only appends records after them.  Instantiated at
each section in turn this pins every record of every document to the
most recent header before it. -/
theorem category_provenance_seg (p : List (List Char)) (h : List Char)
    (t : List Char) (s rest : List (List Char))
    (hh : parseCategoryHeader h = some t)
    (hs : ∀ l ∈ s, parseCategoryHeader l = none)
    (hrest : ∀ h2 rest2, rest = h2 :: rest2 →
      ∃ t2, parseCategoryHeader h2 = some t2) :
    ∃ mid tail,
      parseLines (p ++ h :: s ++ rest) =
        parseLines (p ++ [h]) ++ mid ++ tail ∧
      (∀ r ∈ mid, r.category = strip t) ∧
      parseLines (p ++ h :: s ++ rest.take 1) =
        parseLines (p ++ [h]) ++ mid := by
  set A := (p ++ [h]).foldl step (⟨[], [], false, []⟩ : PState) with hA
  have hcatA : A.category = strip t := by
    rw [hA, List.foldl_append, List.foldl_cons, List.foldl_nil]
    unfold step
    rw [hh]
  have hbufA : A.buf = [] := by
    rw [hA, List.foldl_append, List.foldl_cons, List.foldl_nil]
    unfold step
    rw [hh]
  have hPL1 : parseLines (p ++ [h]) = A.out := by
    unfold parseLines flush
    rw [← hA, if_neg (by simp [hbufA])]
  obtain ⟨hcatF, mid0, hoF, hrF⟩ := foldl_step_no_header_out s A hs
  set F := s.foldl step A with hF
  have hfoldPS : ∀ tl : List (List Char),
      (p ++ h :: s ++ tl).foldl step (⟨[], [], false, []⟩ : PState) =
        tl.foldl step F := by
    intro tl
    rw [show p ++ h :: s ++ tl = ((p ++ [h]) ++ s) ++ tl by simp]
    rw [List.foldl_append, List.foldl_append, ← hA, ← hF]
  cases rest with
  | nil =>
    obtain ⟨mid, heq, hcats⟩ := category_provenance p h t s hh hs
    refine ⟨mid, [], ?_, hcats, ?_⟩
    · simpa using heq
    · simpa using heq
  | cons h2 rest2 =>
    obtain ⟨t2, hh2⟩ := hrest h2 rest2 rfl
    set mid1 := (if F.buf ≠ [] ∧ F.category ≠ [] then
        parseDatasetSection F.buf F.category else []) with hmid1
    have hout2 : (if F.buf ≠ [] ∧ F.category ≠ [] then
        F.out ++ parseDatasetSection F.buf F.category else F.out) =
        F.out ++ mid1 := by
      rw [hmid1]
      split_ifs <;> simp
    have hstepF : step F h2 = ⟨strip t2, [], false, F.out ++ mid1⟩ := by
      unfold step
      rw [hh2, hout2]
    have hmidcats : ∀ r ∈ mid0 ++ mid1, r.category = strip t := by
      intro r hr
      rw [List.mem_append] at hr
      rcases hr with hr | hr
      · exact (hrF r hr).trans hcatA
      · rw [hmid1] at hr
        by_cases hc : F.buf ≠ [] ∧ F.category ≠ []
        · rw [if_pos hc] at hr
          exact (parseDatasetSection_category F.buf F.category r hr).trans
            (hcatF.trans hcatA)
        · rw [if_neg hc] at hr
          simp at hr
    have hPLmid : parseLines (p ++ h :: s ++ [h2]) =
        parseLines (p ++ [h]) ++ (mid0 ++ mid1) := by
      have hL : parseLines (p ++ h :: s ++ [h2]) =
          flush ⟨strip t2, [], false, F.out ++ mid1⟩ := by
        unfold parseLines
        rw [hfoldPS [h2], List.foldl_cons, List.foldl_nil, hstepF]
      rw [hL, flush_eq]
      simp [hoF, hPL1, List.append_assoc]
    set G := rest2.foldl step (⟨strip t2, [], false, []⟩ : PState) with hG
    have hPLfull : parseLines (p ++ h :: s ++ h2 :: rest2) =
        parseLines (p ++ [h]) ++ (mid0 ++ mid1) ++
          (G.out ++ (if G.buf ≠ [] ∧ G.category ≠ [] then
            parseDatasetSection G.buf G.category else [])) := by
      have hL : parseLines (p ++ h :: s ++ h2 :: rest2) =
          flush (rest2.foldl step ⟨strip t2, [], false, F.out ++ mid1⟩) := by
        unfold parseLines
        rw [hfoldPS (h2 :: rest2), List.foldl_cons, hstepF]
      rw [hL, foldl_step_out rest2 (strip t2) [] false (F.out ++ mid1),
        ← hG, flush_eq]
      simp [hoF, hPL1, List.append_assoc]
    refine ⟨mid0 ++ mid1,
      G.out ++ (if G.buf ≠ [] ∧ G.category ≠ [] then
        parseDatasetSection G.buf G.category else []),
      hPLfull, hmidcats, ?_⟩
    simpa using hPLmid

/-- Inserting into the stable descending sort permutes a cons. -/
theorem insertDesc_perm (p : List Char × Nat) (l : List (List Char × Nat)) :
    (insertDesc p l).Perm (p :: l) := by
  induction l with
  | nil => exact List.Perm.refl _
  | cons q rest ih =>
    unfold insertDesc
    by_cases hq : q.2 ≤ p.2
    · rw [if_pos hq]
    · rw [if_neg hq]
      exact (ih.cons q).trans (List.Perm.swap p q rest)

/-- The stable descending sort permutes its input. -/
theorem sortDesc_perm (l : List (List Char × Nat)) :
    (sortDesc l).Perm l := by
  induction l with
  | nil => exact List.Perm.refl _
  | cons p rest ih =>
    unfold sortDesc
    exact (insertDesc_perm p (sortDesc rest)).trans (ih.cons p)

/-- Insertion preserves descending sortedness by count. -/
theorem insertDesc_sorted (p : List Char × Nat)
    (l : List (List Char × Nat))
    (hl : l.Pairwise fun a b => b.2 ≤ a.2) :
    (insertDesc p l).Pairwise fun a b => b.2 ≤ a.2 := by
  induction l with
  | nil => simp [insertDesc]
  | cons q rest ih =>
    rw [List.pairwise_cons] at hl
    obtain ⟨hq, hrest⟩ := hl
    unfold insertDesc
    by_cases hqp : q.2 ≤ p.2
    · rw [if_pos hqp]
      rw [List.pairwise_cons]
      refine ⟨?_, List.pairwise_cons.mpr ⟨hq, hrest⟩⟩
      intro x hx
      rcases List.mem_cons.mp hx with rfl | hx
      · exact hqp
      · exact le_trans (hq x hx) hqp
    · rw [if_neg hqp]
      rw [List.pairwise_cons]
      refine ⟨?_, ih hrest⟩
      intro x hx
      have hx2 := (insertDesc_perm p rest).mem_iff.mp hx
      rcases List.mem_cons.mp hx2 with rfl | hx2
      · exact le_of_lt (Nat.lt_of_not_le hqp)
      · exact hq x hx2

/-- The stable descending sort is descending by count. -/
theorem sortDesc_sorted (l : List (List Char × Nat)) :
    (sortDesc l).Pairwise fun a b => b.2 ≤ a.2 := by
  induction l with
  | nil => simp [sortDesc]
  | cons p rest ih => exact insertDesc_sorted p (sortDesc rest) ih

/-- Stability of the insertion, seen through an exact-count filter: the
inserted element lands in front of the equal-count elements already
present (everything it passed over has a strictly larger count). -/
theorem insertDesc_filter (p : List Char × Nat)
    (l : List (List Char × Nat)) (n : Nat) :
    (insertDesc p l).filter (fun x => decide (x.2 = n)) =
      if p.2 = n then p :: l.filter (fun x => decide (x.2 = n))
      else l.filter (fun x => decide (x.2 = n)) := by
  induction l with
  | nil => simp [insertDesc, List.filter_singleton]
  | cons q rest ih =>
    unfold insertDesc
    by_cases hqp : q.2 ≤ p.2
    · rw [if_pos hqp]
      by_cases hp : p.2 = n <;> simp [List.filter_cons, hp]
    · rw [if_neg hqp]
      rw [List.filter_cons, List.filter_cons, ih]
      by_cases hp : p.2 = n
      · have hq : ¬(q.2 = n) := by omega
        simp [hp, hq]
      · simp [hp]

/-- Stability of the whole sort: restricted to any one count value the
sorted list keeps the input order. -/
theorem sortDesc_filter (l : List (List Char × Nat)) (n : Nat) :
    (sortDesc l).filter (fun x => decide (x.2 = n)) =
      l.filter (fun x => decide (x.2 = n)) := by
  induction l with
  | nil => rfl
  | cons p rest ih =>
    unfold sortDesc
    rw [insertDesc_filter, List.filter_cons]
    by_cases hp : p.2 = n <;> simp [hp, ih]

/-- A dict update of an already present key keeps the key list. -/
theorem bump_fst_mem (cs : List (List Char × Nat)) (c : List Char)
    (h : c ∈ cs.map Prod.fst) :
    (bump cs c).map Prod.fst = cs.map Prod.fst := by
  induction cs with
  | nil => simp at h
  | cons q rest ih =>
    obtain ⟨c1, m1⟩ := q
    unfold bump
    by_cases he : c1 = c
    · rw [if_pos he]
      simp [he]
    · rw [if_neg he]
      simp only [List.map_cons]
      have hc : c ∈ rest.map Prod.fst := by
        simp only [List.map_cons, List.mem_cons] at h
        rcases h with h | h
        · exact absurd h.symm he
        · exact h
      rw [ih hc]

/-- A dict update of a fresh key appends it. -/
theorem bump_fst_new (cs : List (List Char × Nat)) (c : List Char)
    (h : c ∉ cs.map Prod.fst) :
    (bump cs c).map Prod.fst = cs.map Prod.fst ++ [c] := by
  induction cs with
  | nil => simp [bump]
  | cons q rest ih =>
    obtain ⟨c1, m1⟩ := q
    unfold bump
    have he : c1 ≠ c := by
      intro hc
      exact h (by simp [hc])
    rw [if_neg he]
    simp only [List.map_cons, List.cons_append]
    rw [ih (fun hm => h (by simp [hm]))]

/-- Membership in a dict update, assuming distinct keys: either an
untouched pair of a different key, or the bumped pair of the updated
key. -/
theorem bump_mem (cs : List (List Char × Nat)) (c0 c : List Char) (n : Nat)
    (hnd : (cs.map Prod.fst).Nodup) (h : (c, n) ∈ bump cs c0) :
    (c ≠ c0 ∧ (c, n) ∈ cs) ∨
    (c = c0 ∧ ((∃ m, (c0, m) ∈ cs ∧ n = m + 1) ∨
      (c0 ∉ cs.map Prod.fst ∧ n = 1))) := by
  induction cs with
  | nil =>
    simp only [bump, List.mem_singleton, Prod.mk.injEq] at h
    exact Or.inr ⟨h.1, Or.inr ⟨by simp, h.2⟩⟩
  | cons q rest ih =>
    obtain ⟨c1, m1⟩ := q
    simp only [List.map_cons, List.nodup_cons] at hnd
    obtain ⟨hc1, hndr⟩ := hnd
    unfold bump at h
    by_cases he : c1 = c0
    · rw [if_pos he] at h
      subst he
      rw [List.mem_cons] at h
      rcases h with h | h
      · simp only [Prod.mk.injEq] at h
        exact Or.inr ⟨h.1, Or.inl ⟨m1, by simp, h.2⟩⟩
      · have hcne : c ≠ c1 := by
          intro hce
          subst hce
          exact hc1 (List.mem_map.mpr ⟨(c, n), h, rfl⟩)
        exact Or.inl ⟨hcne, List.mem_cons_of_mem _ h⟩
    · rw [if_neg he] at h
      rw [List.mem_cons] at h
      rcases h with h | h
      · simp only [Prod.mk.injEq] at h
        obtain ⟨rfl, rfl⟩ := h
        exact Or.inl ⟨fun hc => he hc, List.mem_cons_self _ _⟩
      · rcases ih hndr h with ⟨hne, hmem⟩ | ⟨rfl, hrest⟩
        · exact Or.inl ⟨hne, List.mem_cons_of_mem _ hmem⟩
        · refine Or.inr ⟨rfl, ?_⟩
          rcases hrest with ⟨m, hm, hn⟩ | ⟨hnot, hn⟩
          · exact Or.inl ⟨m, List.mem_cons_of_mem _ hm, hn⟩
          · refine Or.inr ⟨?_, hn⟩
            simp only [List.map_cons, List.mem_cons]
            rintro (hc | hc)
            · exact he hc.symm
            · exact hnot hc

/-- `findIdx` over an append ignores the suffix when the predicate hits
in the first part. -/
theorem findIdx_append_left {α : Type} (p : α → Bool) (l l2 : List α)
    (h : ∃ x ∈ l, p x = true) :
    (l ++ l2).findIdx p = l.findIdx p := by
  induction l with
  | nil => simp at h
  | cons a l ih =>
    rw [List.cons_append, List.findIdx_cons, List.findIdx_cons]
    by_cases hp : p a
    · simp [hp]
    · have h2 : ∃ x ∈ l, p x = true := by
        obtain ⟨x, hx, hpx⟩ := h
        rcases List.mem_cons.mp hx with rfl | hx
        · exact absurd hpx (by simp [hp])
        · exact ⟨x, hx, hpx⟩
      simp [hp, ih h2]

/-- `findIdx` over an append skips a first part the predicate misses. -/
theorem findIdx_append_none {α : Type} (p : α → Bool) (l l2 : List α)
    (h : ∀ x ∈ l, p x = false) :
    (l ++ l2).findIdx p = l.length + l2.findIdx p := by
  induction l with
  | nil => simp
  | cons a l ih =>
    have hpa := h a (by simp)
    rw [List.cons_append, List.findIdx_cons]
    rw [ih (fun x hx => h x (by simp [hx]))]
    simp [hpa]
    omega

/-- `findIdx` stays in bounds when some member satisfies the
predicate. -/
theorem findIdx_lt_length_of_mem {α : Type} (p : α → Bool) (l : List α)
    (x : α) (hx : x ∈ l) (hpx : p x = true) : l.findIdx p < l.length := by
  induction l with
  | nil => simp at hx
  | cons a l ih =>
    rw [List.findIdx_cons]
    by_cases hp : p a
    · simp [hp]
    · rcases List.mem_cons.mp hx with rfl | hx2
      · exact absurd hpx (by simp [hp])
      · have hlt := ih hx2
        have hpa : p a = false := by simpa using hp
        simp only [hpa, cond_false, List.length_cons]
        omega

/-- Appending a record of an already seen category does not move any
seen category's first appearance. -/
theorem firstApp_append_mem (ds : List Record) (d : Record) (c : List Char)
    (h : c ∈ ds.map Record.category) :
    firstApp (ds ++ [d]) c = firstApp ds c := by
  obtain ⟨x, hx, hxc⟩ := List.mem_map.mp h
  exact findIdx_append_left _ ds [d] ⟨x, hx, by simp [hxc]⟩

/-- A seen category's first appearance is inside the list. -/
theorem firstApp_lt_length (ds : List Record) (c : List Char)
    (h : c ∈ ds.map Record.category) : firstApp ds c < ds.length := by
  obtain ⟨x, hx, hxc⟩ := List.mem_map.mp h
  exact findIdx_lt_length_of_mem _ ds x hx (by simp [hxc])

/-- A fresh category appended at the end first appears at the old
length. -/
theorem firstApp_append_new (ds : List Record) (d : Record)
    (h : d.category ∉ ds.map Record.category) :
    firstApp (ds ++ [d]) d.category = ds.length := by
  unfold firstApp
  rw [findIdx_append_none]
  · simp [List.findIdx_cons]
  · intro x hx
    have hne : x.category ≠ d.category :=
      fun he => h (List.mem_map.mpr ⟨x, hx, he⟩)
    simp [hne]

/-- Appending a record of a different category does not change a
category's record count. -/
theorem count_append_ne (ds : List Record) (d : Record) (c : List Char)
    (hne : c ≠ d.category) :
    ((ds ++ [d]).filter fun x => decide (x.category = c)).length =
      (ds.filter fun x => decide (x.category = c)).length := by
  rw [List.filter_append]
  have h2 : (([d] : List Record).filter fun x => decide (x.category = c)) =
      [] := by
    simp only [List.filter_cons, List.filter_nil]
    have : ¬(d.category = c) := fun he => hne he.symm
    simp [this]
  rw [h2, List.append_nil]

/-- Appending a record bumps its own category's record count by one. -/
theorem count_append_eq (ds : List Record) (d : Record) :
    ((ds ++ [d]).filter fun x =>
        decide (x.category = d.category)).length =
      (ds.filter fun x => decide (x.category = d.category)).length + 1 := by
  rw [List.filter_append]
  have h2 : (([d] : List Record).filter fun x =>
      decide (x.category = d.category)) = [d] := by
    simp [List.filter_cons]
  rw [h2, List.length_append]
  rfl

/-- An unseen category has record count zero. -/
theorem count_zero_of_not_mem (ds : List Record) (c : List Char)
    (h : c ∉ ds.map Record.category) :
    (ds.filter fun x => decide (x.category = c)).length = 0 := by
  have h2 : (ds.filter fun x => decide (x.category = c)) = [] := by
    rw [List.filter_eq_nil_iff]
    intro x hx
    have : x.category ≠ c := fun he => h (List.mem_map.mpr ⟨x, hx, he⟩)
    simp [this]
  rw [h2]
  rfl

/-- `categoryCounts` over an append ends with one dict update. -/
theorem categoryCounts_append (ds : List Record) (d : Record) :
    categoryCounts (ds ++ [d]) = bump (categoryCounts ds) d.category := by
  unfold categoryCounts
  rw [List.foldl_append]
  rfl

/-- The category-counts dict: distinct keys, keys exactly the seen
categories, correct counts, and keys listed in order of first
appearance. -/
theorem categoryCounts_spec (ds : List Record) :
    ((categoryCounts ds).map Prod.fst).Nodup ∧
    (∀ c, c ∈ (categoryCounts ds).map Prod.fst ↔
      c ∈ ds.map Record.category) ∧
    (∀ p ∈ categoryCounts ds,
      p.2 = (ds.filter fun x => decide (x.category = p.1)).length) ∧
    ((categoryCounts ds).map Prod.fst).Pairwise
      (fun a b => firstApp ds a < firstApp ds b) := by
  induction ds using List.reverseRecOn with
  | nil =>
    refine ⟨by simp [categoryCounts], by simp [categoryCounts],
      by simp [categoryCounts], by simp [categoryCounts]⟩
  | append_singleton ds d ih =>
    obtain ⟨hnd, hmem, hcnt, hpw⟩ := ih
    rw [categoryCounts_append]
    by_cases hin : d.category ∈ (categoryCounts ds).map Prod.fst
    · have hfst := bump_fst_mem _ _ hin
      have hmemds : d.category ∈ ds.map Record.category := (hmem _).mp hin
      refine ⟨by rw [hfst]; exact hnd, ?_, ?_, ?_⟩
      · intro c
        rw [hfst, hmem c]
        simp only [List.map_append, List.map_cons, List.map_nil,
          List.mem_append, List.mem_singleton]
        constructor
        · intro hc
          exact Or.inl hc
        · rintro (hc | rfl)
          · exact hc
          · exact hmemds
      · intro p hp
        obtain ⟨c, n⟩ := p
        show n = ((ds ++ [d]).filter fun x => decide (x.category = c)).length
        rcases bump_mem _ _ _ _ hnd hp with ⟨hne, hmem2⟩ | ⟨rfl, hcase⟩
        · rw [count_append_ne ds d c hne]
          exact hcnt (c, n) hmem2
        · rcases hcase with ⟨m, hm, hn⟩ | ⟨hnot, hn⟩
          · rw [count_append_eq ds d, ← hcnt (d.category, m) hm]
            exact hn
          · exact absurd hin hnot
      · rw [hfst]
        refine hpw.imp_of_mem ?_
        intro a b ha hb hr
        rw [firstApp_append_mem ds d a ((hmem a).mp ha),
          firstApp_append_mem ds d b ((hmem b).mp hb)]
        exact hr
    · have hfst := bump_fst_new _ _ hin
      have hmemds : d.category ∉ ds.map Record.category :=
        fun hc => hin ((hmem _).mpr hc)
      refine ⟨?_, ?_, ?_, ?_⟩
      · rw [hfst, List.nodup_append]
        refine ⟨hnd, List.nodup_singleton _, ?_⟩
        intro a ha hb
        rw [List.mem_singleton] at hb
        subst hb
        exact hin ha
      · intro c
        rw [hfst, List.mem_append, hmem c, List.mem_singleton]
        simp only [List.map_append, List.map_cons, List.map_nil,
          List.mem_append, List.mem_singleton]
      · intro p hp
        obtain ⟨c, n⟩ := p
        show n = ((ds ++ [d]).filter fun x => decide (x.category = c)).length
        rcases bump_mem _ _ _ _ hnd hp with ⟨hne, hmem2⟩ | ⟨rfl, hcase⟩
        · rw [count_append_ne ds d c hne]
          exact hcnt (c, n) hmem2
        · rcases hcase with ⟨m, hm, hn⟩ | ⟨hnot, hn⟩
          · rw [count_append_eq ds d, ← hcnt (d.category, m) hm]
            exact hn
          · rw [count_append_eq ds d, count_zero_of_not_mem ds d.category hmemds]
            exact hn
      · rw [hfst, List.pairwise_append]
        refine ⟨?_, by simp, ?_⟩
        · refine hpw.imp_of_mem ?_
          intro a b ha hb hr
          rw [firstApp_append_mem ds d a ((hmem a).mp ha),
            firstApp_append_mem ds d b ((hmem b).mp hb)]
          exact hr
        · intro a ha b hb
          rw [List.mem_singleton] at hb
          subst hb
          rw [firstApp_append_mem ds d a ((hmem a).mp ha),
            firstApp_append_new ds d hmemds]
          exact firstApp_lt_length ds a ((hmem a).mp ha)

/-- Two positions of a list, in order, form a two-element sublist. -/
theorem get_pair_sublist {α : Type} (l : List α) (i j : Nat)
    (hi : i < l.length) (hj : j < l.length) (hij : i < j) :
    [l.get ⟨i, hi⟩, l.get ⟨j, hj⟩].Sublist l := by
  have hdrop : l.drop i = l.get ⟨i, hi⟩ :: l.drop (i + 1) :=
    List.drop_eq_get_cons hi
  have hmem : l.get ⟨j, hj⟩ ∈ l.drop (i + 1) := by
    have hlen : j - (i + 1) < (l.drop (i + 1)).length := by
      rw [List.length_drop]
      omega
    have hget : (l.drop (i + 1)).get ⟨j - (i + 1), hlen⟩ = l.get ⟨j, hj⟩ := by
      rw [← List.get_drop]
      · have he : (i + 1) + (j - (i + 1)) = j := by omega
        simp [he]
      · omega
    rw [← hget]
    exact List.get_mem _ _ _
  have h1 : [l.get ⟨i, hi⟩, l.get ⟨j, hj⟩].Sublist (l.drop i) := by
    rw [hdrop]
    exact (List.singleton_sublist.mpr hmem).cons₂ _
  exact h1.trans (List.drop_sublist i l)

/- The claims. -/

/-- C1: on the six-part example document of spec section 8, parsing
yields exactly the Alpha Set and Beta Set records with the claimed
fields, the Alpha description contains the phrase chest scan corpus,
list_categories returns the single pair (Imaging, 2), and the search
for chest returns exactly the Alpha record. -/
theorem example_document_scenario :
    parseReadme exampleDoc = [alphaRec, betaRec] ∧
    hasSub (("chest scan corpus").data) alphaRec.description = true ∧
    listCategories (parseReadme exampleDoc) = [(("Imaging").data, 2)] ∧
    searchDatasets (parseReadme exampleDoc) (("chest").data) false =
      [alphaRec] :=
  ⟨by decide, by decide, by decide, by decide⟩

/-- C2 counterexample: a record line contains (case-insensitively) the
phrase registration required — one of the four phrases of the claim —
yet the parser leaves requires_registration false: the code checks only
the single phrase requires registration. -/
theorem registration_four_phrase_counterexample :
    hasSub (toLower (("registration required").data))
      (toLower (("Registration required.").data)) = true ∧
    (parseDatasetSection
        [("__Test Set__").data, ("Registration required.").data]
        (("Imaging").data)).map (fun r => r.requires_registration) =
      [false] :=
  ⟨by decide, by decide⟩

/-- C2 amended: requires_registration is true iff some line after the
title contains, case-insensitively, the single phrase requires
registration; the check does not consume the line — a labelled line
containing the phrase still feeds its URL field. -/
theorem requires_registration_single_phrase :
    (∀ (lines : List (List Char)) (category : List Char) (r : Record),
        r ∈ parseDatasetSection lines category →
        (r.requires_registration = true ↔
          ∃ l ∈ lines.tail,
            hasSub (("requires registration").data) (toLower (strip l)) =
              true)) ∧
    (parseDatasetSection
        [("__T S__").data,
         ("Paper: https://x.org requires registration").data]
        (("Imaging").data)).map
      (fun r => (r.requires_registration, r.paper_url)) =
      [(true, some (("https://x.org").data))] := by
  constructor
  · intro lines category r hr
    cases lines with
    | nil => simp [parseDatasetSection] at hr
    | cons l0 rest =>
      simp only [parseDatasetSection, List.mem_singleton] at hr
      subst hr
      simp only [List.tail_cons]
      show (rest.foldl metaStep initMeta).reg = true ↔ _
      rw [foldl_metaStep_reg]
      simp [initMeta, List.any_eq_true]
  · decide

/-- C2 witness: the amended equivalence instantiated on the Alpha Set
buffer of the example document. -/
theorem requires_registration_single_phrase_witness :
    alphaRec.requires_registration = true ↔
      ∃ l ∈ ([("__Alpha Set__").data,
              ("A chest scan corpus. Requires registration.").data,
              ("Paper: https://x.org/a").data] : List (List Char)).tail,
        hasSub (("requires registration").data) (toLower (strip l)) =
          true :=
  requires_registration_single_phrase.1
    [("__Alpha Set__").data,
     ("A chest scan corpus. Requires registration.").data,
     ("Paper: https://x.org/a").data]
    (("Imaging").data) alphaRec (by decide)

/-- C3 counterexample: a buffer whose only metadata line is an overview
URL line yields a record whose information_url is not that URL but
none — the URL lands in the separate overview_url field. -/
theorem overview_fallback_counterexample :
    (parseDatasetSection
        [("__Test Set__").data, ("Overview: https://o.org/x").data]
        (("Imaging").data)).map (fun r => r.information_url) = [none] ∧
    (parseDatasetSection
        [("__Test Set__").data, ("Overview: https://o.org/x").data]
        (("Imaging").data)).map (fun r => r.overview_url) =
      [some (("https://o.org/x").data)] :=
  ⟨by decide, by decide⟩

/-- C3 amended: in the package parser an overview line writes the
separate overview_url field unconditionally and never information_url;
each of the two fields holds exactly the URL of the last line dispatched
to it (in particular an information line is never overridden by a later
overview line, and an overview-only buffer leaves information_url
unset). -/
theorem overview_assigns_overview_url_only
    (lines : List (List Char)) (category : List Char) (r : Record)
    (hr : r ∈ parseDatasetSection lines category) :
    r.information_url = lastFieldUrl .info lines.tail ∧
    r.overview_url = lastFieldUrl .overview lines.tail := by
  cases lines with
  | nil => simp [parseDatasetSection] at hr
  | cons l0 rest =>
    simp only [parseDatasetSection, List.mem_singleton] at hr
    subst hr
    simp only [List.tail_cons]
    constructor
    · show (rest.foldl metaStep initMeta).urlOf .info = _
      rw [foldl_metaStep_urlOf]
      cases h : (fieldLines .info rest).getLast? <;>
        simp [lastFieldUrl, h, initMeta, MetaAcc.urlOf]
    · show (rest.foldl metaStep initMeta).urlOf .overview = _
      rw [foldl_metaStep_urlOf]
      cases h : (fieldLines .overview rest).getLast? <;>
        simp [lastFieldUrl, h, initMeta, MetaAcc.urlOf]

/-- C3 witness: the amended statement instantiated on the overview-only
buffer. -/
theorem overview_assigns_overview_url_only_witness :
    overviewRec.information_url =
      lastFieldUrl .info [("Overview: https://o.org/x").data] ∧
    overviewRec.overview_url =
      lastFieldUrl .overview [("Overview: https://o.org/x").data] :=
  overview_assigns_overview_url_only
    [("__Test Set__").data, ("Overview: https://o.org/x").data]
    (("Imaging").data) overviewRec (by decide)

/-- C4 counterexample: a record whose stripped title is exactly 2
characters appears in the parser output — the package parser has no
title-length filter. -/
theorem short_title_kept_counterexample :
    (parseReadme shortTitleDoc).map (fun r => r.name) = [("Ab").data] := by
  decide

/-- C4 amended: finalization in the package parser discards nothing — a
nonempty buffer always yields exactly one record, whatever the length of
the stripped title (the under-3-characters discard exists only in the
legacy top-level script, not here). -/
theorem no_title_length_filter (lines : List (List Char))
    (category : List Char) (h : lines ≠ []) :
    (parseDatasetSection lines category).length = 1 := by
  cases lines with
  | nil => exact absurd rfl h
  | cons l0 rest => rfl

/-- C4 witness: the amended statement instantiated on a two-character
title. -/
theorem no_title_length_filter_witness :
    (parseDatasetSection [("__Ab__").data] (("Imaging").data)).length =
      1 :=
  no_title_length_filter [("__Ab__").data] (("Imaging").data) (by decide)

/-- C6: list_categories returns one (category, count) pair per distinct
category, the count being the number of records of that category, in
descending count order, with equal-count pairs ordered by the category's
first appearance in the record list. -/
theorem list_categories_ordering (ds : List Record) :
    ((listCategories ds).map Prod.fst).Nodup ∧
    (∀ c, c ∈ (listCategories ds).map Prod.fst ↔
      c ∈ ds.map Record.category) ∧
    (∀ p ∈ listCategories ds,
      p.2 = (ds.filter fun x => decide (x.category = p.1)).length) ∧
    ((listCategories ds).Pairwise fun a b => b.2 ≤ a.2) ∧
    (∀ (i j : Nat) (hi : i < (listCategories ds).length)
        (hj : j < (listCategories ds).length),
      i < j →
      ((listCategories ds).get ⟨i, hi⟩).2 =
        ((listCategories ds).get ⟨j, hj⟩).2 →
      firstApp ds ((listCategories ds).get ⟨i, hi⟩).1 <
        firstApp ds ((listCategories ds).get ⟨j, hj⟩).1) := by
  obtain ⟨hnd, hmem, hcnt, hpw⟩ := categoryCounts_spec ds
  have hperm : (listCategories ds).Perm (categoryCounts ds) :=
    sortDesc_perm _
  refine ⟨?_, ?_, ?_, sortDesc_sorted _, ?_⟩
  · exact ((hperm.map Prod.fst).nodup_iff).mpr hnd
  · intro c
    exact ((hperm.map Prod.fst).mem_iff).trans (hmem c)
  · intro p hp
    exact hcnt p (hperm.subset hp)
  · intro i j hi hj hij heq
    set a := (listCategories ds).get ⟨i, hi⟩ with ha
    set b := (listCategories ds).get ⟨j, hj⟩ with hb
    have hji : b.2 = a.2 := heq.symm
    have hsub := get_pair_sublist (listCategories ds) i j hi hj hij
    rw [← ha, ← hb] at hsub
    have hfil : ([a, b].filter fun x => decide (x.2 = a.2)) = [a, b] := by
      simp [List.filter_cons, hji]
    have hsubf : [a, b].Sublist
        ((categoryCounts ds).filter fun x => decide (x.2 = a.2)) := by
      rw [← sortDesc_filter (categoryCounts ds) a.2, ← hfil]
      exact hsub.filter _
    have hpw2 : ((categoryCounts ds).filter fun x =>
        decide (x.2 = a.2)).Pairwise
        (fun p q => firstApp ds p.1 < firstApp ds q.1) := by
      have hp3 : (categoryCounts ds).Pairwise
          (fun p q => firstApp ds p.1 < firstApp ds q.1) :=
        List.Pairwise.of_map Prod.fst (fun p q h => h) hpw
      exact hp3.sublist (List.filter_sublist _)
    have hab := hpw2.sublist hsubf
    rw [List.pairwise_cons] at hab
    exact hab.1 _ (List.mem_singleton.mpr rfl)

/-- C6 witness: the tie-break instantiated on two distinct categories of
equal count — category B appears first in the records and first in the
pair list. -/
theorem list_categories_ordering_witness :
    firstApp [recCatB, recCatA]
        ((listCategories [recCatB, recCatA]).get ⟨0, by decide⟩).1 <
      firstApp [recCatB, recCatA]
        ((listCategories [recCatB, recCatA]).get ⟨1, by decide⟩).1 :=
  (list_categories_ordering [recCatB, recCatA]).2.2.2.2 0 1 (by decide)
    (by decide) (by decide) (by decide)

/-- C7 counterexample: a second parse_readme call on the same browser
does not leave self.datasets equal to the result of one parse — the
method appends instead of replacing. -/
theorem parse_twice_appends_counterexample :
    parseReadmeFrom (parseReadme tinyDoc) tinyDoc ≠ parseReadme tinyDoc := by
  decide

/-- C7 amended: the parse is a pure function of the text, but
parse_readme appends to self.datasets: a call on a browser holding
`prev` yields `prev` followed by the one-parse result, so a second call
on the same browser yields the one-parse result twice, which equals one
parse only when the document yields no records. -/
theorem parse_readme_appends (prev : List Record) (content : List Char) :
    parseReadmeFrom prev content = prev ++ parseReadme content ∧
    (parseReadmeFrom (parseReadme content) content = parseReadme content ↔
      parseReadme content = []) := by
  have frame : ∀ P : List Record,
      parseReadmeFrom P content = P ++ parseReadmeFrom [] content := by
    intro P
    unfold parseReadmeFrom
    rw [foldl_step_out]
    unfold flush
    split_ifs <;> simp_all
  refine ⟨frame prev, ?_⟩
  rw [show parseReadme content = parseReadmeFrom [] content from rfl,
    frame (parseReadmeFrom [] content)]
  constructor
  · intro h
    have hl := congrArg List.length h
    simp only [List.length_append] at hl
    exact List.length_eq_zero.mp (by omega)
  · intro h
    rw [h]
    rfl

/-- C10: create_summary_statistics raises on degenerate input rather
than returning a zeroed result: TypeError for a non-list argument,
ValueError for the empty list, and no statistics value is ever returned
for the empty list. -/
theorem create_summary_statistics_errors :
    create_summary_statistics .nonList = .error .typeErr ∧
    create_summary_statistics (.list []) = .error .valueErr ∧
    ∀ (arg : StatsArg) (s : Stats),
      create_summary_statistics arg = .ok s → arg ≠ .list [] := by
  refine ⟨rfl, rfl, ?_⟩
  intro arg s h he
  subst he
  simp [create_summary_statistics] at h

/-- C10 witness: the no-result-for-empty part instantiated on a
one-record list. -/
theorem create_summary_statistics_errors_witness :
    StatsArg.list [betaRec] ≠ StatsArg.list [] :=
  create_summary_statistics_errors.2.2 (.list [betaRec])
    (computeStats [betaRec]) rfl

/-- C5: while a category is active and a record is being accumulated, a
line whose stripped form begins with the bold title marker finalizes the
pending buffer into the output list and seeds a new buffer with the
title line (so two consecutive bold titles without a separator yield two
records; the witness checks that consequence on a concrete document). -/
theorem title_line_finalizes_pending (st : PState) (line : List Char)
    (hti : (("__").data).isPrefixOf (strip line) = true)
    (hcat : st.category ≠ []) (hbuf : st.buf ≠ []) :
    step st line =
      { category := st.category
        buf := [line]
        inDataset := true
        out := st.out ++ parseDatasetSection st.buf st.category } := by
  have hhead := parseCategoryHeader_of_title line hti
  have hsep : strip line ≠ "***".data := by
    intro he
    rw [he] at hti
    exact absurd hti (by decide)
  simp only [step, hhead]
  rw [if_neg hsep, if_pos (⟨hti, hcat⟩ : _ ∧ _), if_pos hbuf]

/-- C5 witness: the step property at a concrete pending state, plus the
two-consecutive-titles consequence on a concrete document. -/
theorem title_line_finalizes_pending_witness :
    step
        { category := ("Imaging").data
          buf := [("__Alpha Set__").data]
          inDataset := true
          out := [] } (("__Beta Set__").data) =
      { category := ("Imaging").data
        buf := [("__Beta Set__").data]
        inDataset := true
        out := [] ++ parseDatasetSection [("__Alpha Set__").data]
          (("Imaging").data) } ∧
    (parseReadme twoTitleDoc).map (fun r => r.name) =
      [("Alpha Set").data, ("Beta Set").data] :=
  ⟨title_line_finalizes_pending
      { category := ("Imaging").data
        buf := [("__Alpha Set__").data]
        inDataset := true
        out := [] } (("__Beta Set__").data) (by decide) (by decide)
      (by decide),
   by decide⟩

/-- C9: for a nonempty record list with no truthy description the
statistics report zero with_description, zero average and minimum 0
(not the infinite sentinel); when at least one record has a description,
the reported minimum and maximum are the true minimum and maximum of
the description lengths over records with nonempty descriptions. -/
theorem description_statistics_spec :
    (∀ (ds : List Record) (s : Stats),
        create_summary_statistics (.list ds) = .ok s →
        (∀ d ∈ ds, d.description = []) →
        s.description_statistics.with_description = 0 ∧
        s.description_statistics.average_description_length = 0 ∧
        s.description_statistics.min_description_length = .val 0) ∧
    (∀ (ds : List Record) (s : Stats),
        create_summary_statistics (.list ds) = .ok s →
        (∃ d ∈ ds, d.description ≠ []) →
        (∃ m, s.description_statistics.min_description_length = .val m ∧
          m ∈ descLens ds ∧ ∀ x ∈ descLens ds, m ≤ x) ∧
        s.description_statistics.max_description_length ∈ descLens ds ∧
        ∀ x ∈ descLens ds,
          x ≤ s.description_statistics.max_description_length) := by
  have hok : ∀ (ds : List Record) (s : Stats),
      create_summary_statistics (.list ds) = .ok s → s = computeStats ds := by
    intro ds s h
    by_cases hds : ds = [] <;>
      simp [create_summary_statistics, hds] at h
    exact h.symm
  obtain hfold := fun ds => foldl_statsStep_desc ds initStatsAcc
  have i1 : initStatsAcc.description_lengths = ([] : List Nat) := rfl
  have i2 : initStatsAcc.with_description = 0 := rfl
  have i3 : initStatsAcc.max_description_length = 0 := rfl
  have i4 : initStatsAcc.min_description_length = MinLen.inf := rfl
  constructor
  · intro ds s h hall
    obtain rfl := hok ds s h
    have hdn : descLens ds = [] := by
      simp only [descLens, List.map_eq_nil_iff, List.filter_eq_nil_iff]
      intro d hd
      simpa using hall d hd
    obtain ⟨e1, e2, e3, e4⟩ := hfold ds
    simp only [computeStats]
    rw [e1, i1, hdn]
    rw [if_neg (by simp)]
    refine ⟨?_, rfl, rfl⟩
    show (List.foldl statsStep initStatsAcc ds).with_description = 0
    rw [e2, i2, hdn]
    rfl
  · intro ds s h hex
    obtain rfl := hok ds s h
    have hne : descLens ds ≠ [] := by
      obtain ⟨d, hd, hdne⟩ := hex
      refine List.ne_nil_of_mem (a := d.description.length) ?_
      simp only [descLens, List.mem_map]
      exact ⟨d, List.mem_filter.mpr ⟨hd, by simpa using hdne⟩, rfl⟩
    obtain ⟨n, rest, hnr⟩ : ∃ n rest, descLens ds = n :: rest := by
      cases hdl : descLens ds with
      | nil => exact absurd hdl hne
      | cons n rest => exact ⟨n, rest, rfl⟩
    obtain ⟨e1, e2, e3, e4⟩ := hfold ds
    have hmin : ((descLens ds).foldl minUpdate MinLen.inf) =
        .val (rest.foldl min n) := by
      rw [hnr, List.foldl_cons]
      exact foldl_minUpdate_val rest n
    have hmax : ((descLens ds).foldl max 0) = rest.foldl max n := by
      rw [hnr, List.foldl_cons, Nat.zero_max]
    simp only [computeStats]
    rw [e1, i1, List.nil_append]
    rw [if_pos hne]
    refine ⟨⟨rest.foldl min n, ?_, ?_, ?_⟩, ?_, ?_⟩
    · show (List.foldl statsStep initStatsAcc ds).min_description_length =
        MinLen.val (rest.foldl min n)
      rw [e4, i4, hmin]
    · rw [hnr]
      exact foldl_min_mem rest n
    · intro x hx
      rw [hnr, List.mem_cons] at hx
      rcases hx with rfl | hx
      · exact foldl_min_le_seed rest x
      · exact foldl_min_le_mem rest n x hx
    · show (List.foldl statsStep initStatsAcc ds).max_description_length ∈
        descLens ds
      rw [e3, i3, hmax, hnr]
      exact foldl_max_mem rest n
    · intro x hx
      show x ≤ (List.foldl statsStep initStatsAcc ds).max_description_length
      rw [e3, i3, hmax]
      rw [hnr, List.mem_cons] at hx
      rcases hx with rfl | hx
      · exact le_foldl_max_seed rest x
      · exact le_foldl_max_mem rest n x hx

/-- C8: every parsed record has a nonempty name and a nonempty category;
the header-free lines before the first header contribute no record to
any document (so no record is ever emitted before a header has been
seen, and a header-free document yields none at all); and for every
section of every document — a header, its header-free body, and a
remainder that is empty or starts with the next header — the records
emitted between the prefix ending at the header and the prefix ending
at the next header (or the end of the document) are exactly the pinned
middle segment, all carrying that header's trimmed title, so each
record's category is the most recent header before it. -/
theorem record_fields_and_category_provenance :
    (∀ (ls : List (List Char)) (r : Record),
        r ∈ parseLines ls → r.name ≠ [] ∧ r.category ≠ []) ∧
    (∀ (pre rest : List (List Char)),
        (∀ l ∈ pre, parseCategoryHeader l = none) →
        parseLines (pre ++ rest) = parseLines rest) ∧
    (∀ ls : List (List Char),
        (∀ l ∈ ls, parseCategoryHeader l = none) → parseLines ls = []) ∧
    (∀ (p : List (List Char)) (h : List Char) (t : List Char)
        (s rest : List (List Char)),
        parseCategoryHeader h = some t →
        (∀ l ∈ s, parseCategoryHeader l = none) →
        (∀ h2 rest2, rest = h2 :: rest2 →
          ∃ t2, parseCategoryHeader h2 = some t2) →
        ∃ mid tail,
          parseLines (p ++ h :: s ++ rest) =
            parseLines (p ++ [h]) ++ mid ++ tail ∧
          (∀ r ∈ mid, r.category = strip t) ∧
          parseLines (p ++ h :: s ++ rest.take 1) =
            parseLines (p ++ [h]) ++ mid) :=
  ⟨parseLines_good, parseLines_headerless, parseLines_no_header,
    category_provenance_seg⟩

/-- C8 witness: the nonemptiness part instantiated on the Alpha record
of the example document. -/
theorem record_fields_and_category_provenance_witness :
    alphaRec.name ≠ [] ∧ alphaRec.category ≠ [] :=
  record_fields_and_category_provenance.1 (splitLines exampleDoc) alphaRec
    (by decide)

/-- C9 witness: both parts instantiated — a one-record list with no
description, and a one-record list with a description. -/
theorem description_statistics_spec_witness :
    ((computeStats [betaRec]).description_statistics.with_description = 0 ∧
      (computeStats
          [betaRec]).description_statistics.average_description_length =
        0 ∧
      (computeStats
          [betaRec]).description_statistics.min_description_length =
        .val 0) ∧
    ((∃ m,
        (computeStats
            [alphaRec]).description_statistics.min_description_length =
          .val m ∧
        m ∈ descLens [alphaRec] ∧ ∀ x ∈ descLens [alphaRec], m ≤ x) ∧
      (computeStats
          [alphaRec]).description_statistics.max_description_length ∈
        descLens [alphaRec] ∧
      ∀ x ∈ descLens [alphaRec],
        x ≤ (computeStats
          [alphaRec]).description_statistics.max_description_length) :=
  ⟨description_statistics_spec.1 [betaRec] (computeStats [betaRec]) rfl
      (by decide),
   description_statistics_spec.2 [alphaRec] (computeStats [alphaRec]) rfl
      ⟨alphaRec, by decide, by decide⟩⟩

end MedicalData
